import Mathlib

/-!
Verification of the pymachine construction-matching engine and
spreading-activation loop against its specification.

The development shallowly embeds three source files:
* `spreading_activation.py` (namespace `SA`): the activation fixpoint loop,
  the per-construction search step and the linker-resolution step;
* `pymachine/construction.py` (namespace `PMC`): the FSA-driven
  `Construction` class hierarchy (`check` / `run` / `last_check` / `act`,
  `NPConstruction`, `VerbConstruction`, `AVMConstruction`);
* `constructions.py` (namespace `CS`): simple rule/command constructions
  (`Command.get_instance`, `AppendRegexCommand`, `OneCommand`,
  `VerbCommand`, `Construction.__match__`, `Construction.do`).

Machines (semantic units) are modelled by identifiers; where a claim needs
the partition structure of a machine, a graph `Nat → List (List Nat)`
(machine id → ordered partitions, each an ordered list of member ids) is
threaded explicitly.  Python exceptions are modelled with `Except Unit`;
a python `None` result is `Option.none`.
-/

namespace SA

/-- Interface of the lexicon collaborator, as seen by the skeleton of
`SpreadingActivation.activation_loop`.  `σ` is the (opaque) state of the
lexicon together with the working set; `runBody` performs the body of one
iteration (expansion, construction search, linking, `lexicon.activate()`
and the recomputation of the unexpanded list); `activeCount` is
`len(self.lexicon.active)` and `unexpandedCount` is `len(unexpanded)` in
the state reached. -/
structure Lexicon (σ : Type) where
  activeCount : σ → Nat
  unexpandedCount : σ → Nat
  runBody : σ → σ

/-- The control skeleton of `SpreadingActivation.activation_loop`:
`while len(unexpanded) > 0: <body>; if len(active) == last_active: break
else: last_active = len(active)`.  Fuel-indexed; `none` means the loop has
not stopped within `fuel` iterations.  On exit it returns the final state
together with the value of `last_active` at the exit point. -/
def activationLoop {σ : Type} (L : Lexicon σ) : Nat → σ → Nat → Option (σ × Nat)
  | 0, _, _ => none
  | fuel + 1, s, lastActive =>
    if L.unexpandedCount s = 0 then some (s, lastActive)
    else
      let t := L.runBody s
      if L.activeCount t = lastActive then some (t, lastActive)
      else activationLoop L fuel t (L.activeCount t)

/-- A lexicon whose body never empties the unexpanded list and never
changes the active-entry count: the loop `break`s after one iteration with
unexpanded units still present. -/
def stuckLexicon : Lexicon Unit :=
  { activeCount := fun _ => 1
    unexpandedCount := fun _ => 1
    runBody := fun s => s }

/-- A lexicon that starts with no unexpanded units: the `while` condition
fails immediately. -/
def idleLexicon : Lexicon Unit :=
  { activeCount := fun _ => 0
    unexpandedCount := fun _ => 0
    runBody := fun s => s }

end SA

namespace PMC

/-- Modelled from the spec: the `fst` module (classes `FSA`/`FST`) is not
under `src/`.  Per §4.2 of the spec an automaton has one initial state,
one or more final states, and transitions guarded by matchers; `read`
attempts the single outgoing transition from the current state whose
matcher accepts the unit, and leaves the automaton stuck (modelled by
`none`) if no transition matches.  A transition is `(matcher, source,
target)`, in the argument order of `add_transition`. -/
structure FSA (M : Type) where
  init : String
  finals : List String
  trans : List ((M → Bool) × String × String)

/-- Modelled from the spec: one `read` of the automaton from an optional
current state (`none` = stuck). -/
def FSA.readStep {M : Type} (a : FSA M) (s : Option String) (m : M) : Option String :=
  match s with
  | none => none
  | some st => (a.trans.find? fun t => t.2.1 == st && t.1 m).map fun t => t.2.2

/-- Modelled from the spec: `reset()` followed by one `read` per unit of
the sequence. -/
def FSA.runSeq {M : Type} (a : FSA M) (seq : List M) : Option String :=
  seq.foldl a.readStep (some a.init)

/-- Modelled from the spec: `in_final()` on an optional current state; a
stuck automaton is not in a final state. -/
def FSA.inFinalAt {M : Type} (a : FSA M) (s : Option String) : Bool :=
  match s with
  | some st => a.finals.contains st
  | none => false

/-- `Construction.check`: reset the control, dry-run every machine of the
sequence through it, and report `in_final()`. -/
def checkC {M : Type} (control : FSA M) (seq : List M) : Bool :=
  control.inFinalAt (control.runSeq seq)

/-- Base `Construction.act`: resets and re-reads the sequence in effecting
mode (the automaton state reached is the first component) and then falls
off the end of the method body, so the value returned to the caller (the
second component) is `None`. -/
def actC {M : Type} (control : FSA M) (seq : List M) : Option String × Option (List M) :=
  (control.runSeq seq, none)

/-- `Construction.run`: `check(seq)`; if the control ended in a final
state, return `act(seq)`, else `None`. -/
def runC {M : Type} (control : FSA M) (seq : List M) : Option (List M) :=
  if control.inFinalAt (control.runSeq seq) then (actC control seq).2 else none

/-- The AVM collaborator, reduced to what `AVMConstruction` consumes: an
ordered list of slots, each with its key, type matcher and default value
(`get_field(key, AVM.TYPE)` and `get_field(key, AVM.DEFAULT)`). -/
structure AVM (M : Type) where
  name : String
  fields : List (String × (M → Bool) × M)

/-- `AVMConstruction.generate_control`: a state `"0"` that is initial and
not final, plus one final state `str(i+1)` per AVM key, reached from `"0"`
by a transition guarded by that key's type matcher. -/
def AVM.genControl {M : Type} (avm : AVM M) : FSA M :=
  { init := "0"
    finals := (List.range avm.fields.length).map fun i => toString (i + 1)
    trans := avm.fields.enum.map fun fi => (fi.2.2.1, "0", toString (fi.1 + 1)) }

/-- `AVMConstruction.check`: `return True`, unconditionally, ignoring the
construction's control. -/
def avmCheck {M : Type} (_avm : AVM M) (_seq : List M) : Bool :=
  true

/-- A concrete AVM whose generated control accepts nothing (its single
matcher rejects every unit). -/
def cexAvm : AVM Nat :=
  { name := "A", fields := [("slot", fun _ => false, 0)] }

/-- The state of a `VerbConstruction` that the claims observe: its control
and the `activated` flag. -/
structure VerbConstruction (M : Type) where
  control : FSA M
  activated : Bool

/-- Tail of `VerbConstruction.__init__`: the control has been generated
and `self.activated = False` is set. -/
def VerbConstruction.start {M : Type} (control : FSA M) : VerbConstruction M :=
  { control := control, activated := false }

/-- `VerbConstruction.check`: `False` when `self.activated` is set,
otherwise the inherited `Construction.check`. -/
def VerbConstruction.check {M : Type} (vc : VerbConstruction M) (seq : List M) : Bool :=
  if vc.activated then false else checkC vc.control seq

/-- `VerbConstruction` does not override `act`, so firing it runs the
inherited `Construction.act`: it re-reads the sequence in effecting mode
and returns `None`.  No statement of `act` — indeed no statement outside
`__init__` anywhere in the source — assigns `self.activated`, so the
construction state after `act` carries the `activated` flag unchanged;
the automaton's current-state pointer is not part of the observable state
because every `check`/`act` begins with `reset()`. -/
def VerbConstruction.act {M : Type} (vc : VerbConstruction M) (seq : List M) :
    VerbConstruction M × Option (List M) :=
  (vc, (actC vc.control seq).2)

/-- A concrete verb control that accepts exactly the sequence `[7]`. -/
def cexVerbControl : FSA Nat :=
  { init := "0", finals := ["1"], trans := [(fun m => m == 7, "0", "1")] }

/-- A matcher pattern value as consumed by
`NPConstruction._collect_variable_values`: either a literal / variable
string, or a nested mapping of keys to pattern values. -/
inductive Pat where
  | leaf : String → Pat
  | node : List (String × Pat) → Pat

/-- A KR attribute value (`machine.control.kr` entries): a string or a
nested mapping. -/
inductive Dat where
  | leaf : String → Dat
  | node : List (String × Dat) → Dat

mutual

/-- Python `==` on KR values: structural equality of strings and
mappings. -/
def Dat.beq : Dat → Dat → Bool
  | .leaf a, .leaf b => a == b
  | .node xs, .node ys => Dat.beqList xs ys
  | _, _ => false

/-- Python `==` on KR mappings, entrywise. -/
def Dat.beqList : List (String × Dat) → List (String × Dat) → Bool
  | [], [] => true
  | (k, v) :: xs, (l, w) :: ys => k == l && Dat.beq v w && Dat.beqList xs ys
  | _, _ => false

end

/-- The `greeks` multimap of `NPConstruction.last_check`:
pattern variable → set of observed values. -/
abbrev Greeks := List (String × List Dat)

/-- `greeks[var].add(value)`: a `defaultdict(set)` update — insert the
value into the variable's set unless an equal value is already there. -/
def addGreek : Greeks → String → Dat → Greeks
  | [], k, v => [(k, [v])]
  | (q, vs) :: rest, k, v =>
    if q = k then (q, if vs.any fun w => Dat.beq w v then vs else vs ++ [v]) :: rest
    else (q, vs) :: addGreek rest k v

/-- The final loop of `last_check`: some variable maps to more than one
distinct observed value. -/
def hasConflict (g : Greeks) : Bool :=
  g.any fun kv => 1 < kv.2.length

/-- `NPConstruction._collect_variable_values(tmpl, data, greeks)`.
`Except`'s error is a raised exception (`tmpl[key][0]` on an empty
string); `.ok none` is the method's `False`; `.ok (some g)` is `True`
with the updated multimap.  Two faithfulness notes: on the first key
whose pattern value is a mapping the method `return`s the recursive call,
skipping all remaining keys — mirrored here; the behaviour on a mapping
pattern paired with a string datum (Python would run `in` on a string) is
out of the model and mapped to an error, and the theorems assume
`compatDict`-shaped data. -/
def collectVarVals : List (String × Pat) → List (String × Dat) → Greeks →
    Except Unit (Option Greeks)
  | [], _, g => .ok (some g)
  | (key, tv) :: rest, data, g =>
    match data.lookup key with
    | none => .ok none
    | some dv =>
      match tv with
      | .node sub =>
        match dv with
        | .node dsub => collectVarVals sub dsub g
        | .leaf _ => .error ()
      | .leaf s =>
        if s.isEmpty then .error ()
        else if s.front = '@' then collectVarVals rest data (addGreek g s dv)
        else collectVarVals rest data g
termination_by t _ _ => sizeOf t

/-- Shape compatibility between a pattern mapping and a data mapping:
every pattern leaf that will be inspected is non-empty and every nested
pattern mapping meets a data mapping.  Under this predicate
`_collect_variable_values` raises no exception. -/
def compatDict : List (String × Pat) → List (String × Dat) → Bool
  | [], _ => true
  | (key, tv) :: rest, data =>
    match data.lookup key with
    | none => true
    | some dv =>
      match tv with
      | .node sub =>
        match dv with
        | .node dsub => compatDict sub dsub
        | .leaf _ => false
      | .leaf s => !s.isEmpty && compatDict rest data
termination_by t _ => sizeOf t

/-- The per-machine collection loop of `last_check`: machine `i`
contributes `_collect_variable_values(patterns[i], seq[i].control.kr,
greeks)`; a `False` from the collector makes `last_check` return `False`
immediately. -/
def collectAll : List (List (String × Pat) × List (String × Dat)) → Greeks →
    Except Unit (Option Greeks)
  | [], g => .ok (some g)
  | (p, d) :: rest, g =>
    match collectVarVals p d g with
    | .error e => .error e
    | .ok none => .ok none
    | .ok (some g2) => collectAll rest g2

/-- `NPConstruction.last_check(seq)`.  A machine of the sequence is
represented by its KR attribute mapping (`seq[i].control.kr`), and the
construction by the patterns of its matchers.  The failed `assert
len(seq) == len(patterns)` is the error case. -/
def lastCheckNP (patterns : List (List (String × Pat)))
    (seq : List (List (String × Dat))) : Except Unit Bool :=
  if seq.length = patterns.length then
    match collectAll (patterns.zip seq) [] with
    | .error e => .error e
    | .ok none => .ok false
    | .ok (some g) => .ok (!hasConflict g)
  else .error ()

end PMC

namespace CS

/-- `PosControl` compares and hashes by its POS string (rule controls are
looked up in the pairs dictionary through fresh `Control` instances, which
only works under value equality), so a control is modelled by that
string. -/
abbrev Ctrl := String

/-- A graph of machines: machine id → ordered list of partitions, each an
ordered list of member ids. -/
abbrev Graph := Nat → List (List Nat)

/-- The closed set of commands produced by `Command.get_instance`:
`AppendRegexCommand`, `OneCommand` and `VerbCommand`. -/
inductive Command where
  | appendRegex (into what : Ctrl)
  | one (stay : Ctrl)
  | verb

/-- Splits a character list at the first occurrence of `c`; `none` when
`c` does not occur. -/
def splitAtChar (c : Char) : List Char → Option (List Char × List Char)
  | [] => none
  | x :: xs =>
    if x = c then some ([], xs)
    else (splitAtChar c xs).map fun p => (x :: p.1, p.2)

/-- The `append_regex_pattern` of `Command.get_instance`: a prefix of the
code of the shape `INTO[WHAT]`, where `INTO` contains no opening bracket
and `WHAT` no closing bracket (the regex classes).  Returns the two
groups. -/
def parseAppend (s : String) : Option (String × String) :=
  match splitAtChar (Char.ofNat 91) s.toList with
  | none => none
  | some br =>
    match splitAtChar (Char.ofNat 93) br.2 with
    | none => none
    | some inner => some (String.mk br.1, String.mk inner.1)

/-- `Command.get_instance(type_str, terminals)`: first the
`INTO[WHAT]` shape, then the alternation of the terminal labels (the
first terminal matching at the start of the code wins — terminals are
plain category labels, so regex alternation is prefix choice), then `*`;
a code matching none of them yields Python `None`. -/
def Command.getInstance (typeStr : String) (terminals : List Ctrl) : Option Command :=
  match parseAppend typeStr with
  | some iw => some (.appendRegex iw.1 iw.2)
  | none =>
    match terminals.find? fun t => t.isPrefixOf typeStr with
    | some t => some (.one t)
    | none => if typeStr = "*" then some .verb else none

/-- Appends `x` at the end of partition `i` of a partition list. -/
def appendAt (parts : List (List Nat)) (i : Nat) (x : Nat) : List (List Nat) :=
  parts.set i (parts.getD i [] ++ [x])

/-- Modelled from the spec: `machine.append(partition, other)` of the
external machine module splices `other` into the given partition index of
`machine`; only that machine changes. -/
def Graph.appendPart (g : Graph) (m : Nat) (i : Nat) (x : Nat) : Graph :=
  fun j => if j = m then appendAt (g j) i x else g j

/-- `Command.run(pairs)` over the machine graph.  `AppendRegexCommand`:
`pairs[self.into].append(1, pairs[self.what]); return [pairs[self.into]]`
(a missing key raises).  `OneCommand`: keep the machines whose control
equals `self.stay`.  `VerbCommand`: `return None`. -/
def Command.run (cmd : Command) (g : Graph) (pairs : List (Ctrl × Nat)) :
    Except Unit (Graph × Option (List Nat)) :=
  match cmd with
  | .appendRegex into what =>
    match pairs.lookup into, pairs.lookup what with
    | some mi, some mw => .ok (g.appendPart mi 1 mw, some [mi])
    | _, _ => .error ()
  | .one stay => .ok (g, some ((pairs.filter fun kv => kv.1 == stay).map fun kv => kv.2))
  | .verb => .ok (g, none)

/-- Python dict assignment `pairs[k] = m`: replace the value at an
existing key in place, otherwise append the binding. -/
def updatePairs {M : Type} : List (Ctrl × M) → Ctrl → M → List (Ctrl × M)
  | [], k, m => [(k, m)]
  | (q, x) :: rest, k, m =>
    if q = k then (k, m) :: rest else (q, x) :: updatePairs rest k m

/-- The second loop of `Construction.__match__` over
`possible_pairs.items()`: for each machine, `pair_for_machine` is the
list of rule controls its control `is_a` (here: the rule slots, with
multiplicity, whose pattern the machine satisfies); more than one is the
raised `NotImplementedError`, zero is `False`, and an already-assigned
machine is `False`; otherwise the machine is recorded under its single
slot. -/
def matchLoop {M : Type} [DecidableEq M] (isA : M → Ctrl → Bool) (rule : List Ctrl) :
    List M → List (Ctrl × M) → Except Unit (Option (List (Ctrl × M)))
  | [], pairs => .ok (some pairs)
  | m :: ms, pairs =>
    let pp := rule.filter fun c => isA m c
    if 1 < pp.length then .error ()
    else
      match pp with
      | [] => .ok none
      | c :: _ =>
        if pairs.any fun kv => decide (kv.2 = m) then .ok none
        else matchLoop isA rule ms (updatePairs pairs c m)

/-- `Construction.__match__(machines)`: arity test, the machine loop, and
the final `len(pairs) != len(self.rule_right)` test.  `.error` is the
raised `NotImplementedError`, `.ok none` is `False`, `.ok (some pairs)`
is the returned dictionary.  The machine list is assumed free of
duplicates (the activation loop feeds permutations of a set), matching
the collapse of duplicate keys in `possible_pairs`. -/
def matchC {M : Type} [DecidableEq M] (isA : M → Ctrl → Bool) (rule : List Ctrl)
    (machines : List M) : Except Unit (Option (List (Ctrl × M))) :=
  if machines.length = rule.length then
    match matchLoop isA rule machines [] with
    | .error e => .error e
    | .ok none => .ok none
    | .ok (some pairs) =>
      if pairs.length = rule.length then .ok (some pairs) else .ok none
  else .ok none

/-- `Construction.do(machines)`: run `__match__`; on `False` (or an empty
pairs dictionary — Python truthiness) return `None` without consulting
the command, otherwise hand the pairs to the command's `run`.  The
command is abstracted by the function `run` it contributes. -/
def doC {M : Type} [DecidableEq M] (isA : M → Ctrl → Bool) (rule : List Ctrl)
    (run : List (Ctrl × M) → Except Unit (Option (List M))) (ms : List M) :
    Except Unit (Option (List M)) :=
  match matchC isA rule ms with
  | .error e => .error e
  | .ok none => .ok none
  | .ok (some pairs) => if pairs.isEmpty then .ok none else run pairs

/-- The build-time data of a simple construction. -/
structure Construction where
  rule_left : String
  rule_right : List Ctrl
  command : Option Command

/-- `Construction.__init__(rule_left, rule_right, command)`: stores the
fields and builds the command through the factory.  A total function: no
validation of the right-hand rule happens at build time. -/
def mkConstruction (ruleLeft : String) (ruleRight : List Ctrl) (command : String) :
    Construction :=
  { rule_left := ruleLeft
    rule_right := ruleRight
    command := Command.getInstance command ruleRight }

/-- Key-set insertion: the effect of one `pairs[k] = v` on the ordered
key list of a Python dictionary. -/
def insertKey (ks : List Ctrl) (k : Ctrl) : List Ctrl :=
  if k ∈ ks then ks else ks ++ [k]

/-- The single slot pattern a machine satisfies (meaningful when its
`pair_for_machine` list has exactly one element). -/
def firstSlot {M : Type} (isA : M → Ctrl → Bool) (rule : List Ctrl) (m : M) : Ctrl :=
  (rule.filter fun c => isA m c).headD ""

/-- The spec's matching contract for simple constructions, stated from
the spec's words: the sequence length equals the rule arity, every unit's
category satisfies exactly one slot pattern (counting slots with
multiplicity), and no two distinct units satisfy the same slot — i.e.
the unit-to-slot assignment is the graph of a bijection between the
sequence and the rule slots. -/
def specBijection {M : Type} (isA : M → Ctrl → Bool) (rule : List Ctrl)
    (ms : List M) : Prop :=
  ms.length = rule.length ∧
    (∀ m ∈ ms, (rule.filter fun c => isA m c).length = 1) ∧
    ∀ m ∈ ms, ∀ n ∈ ms, m ≠ n →
      (rule.filter fun c => isA m c).head? ≠ (rule.filter fun c => isA n c).head?

end CS

namespace SA

/-- The interface of a construction as the activation loop consumes it:
`check` and `act` (step 2b calls nothing else). -/
structure ConstrI (M : Type) where
  check : List M → Bool
  act : List M → Option (List M)

/-- All sublists (subsets, as the working set is duplicate-free) of a
list. -/
def sublistsS {M : Type} : List M → List (List M)
  | [] => [[]]
  | x :: xs => sublistsS xs ++ (sublistsS xs).map fun l => x :: l

/-- All ways of inserting an element into a list. -/
def insertsEverywhere {M : Type} (x : M) : List M → List (List M)
  | [] => [[x]]
  | y :: ys => (x :: y :: ys) :: (insertsEverywhere x ys).map fun l => y :: l

/-- All permutations of a list. -/
def perms {M : Type} : List M → List (List M)
  | [] => [[]]
  | x :: xs => (perms xs).flatMap (insertsEverywhere x)

/-- The candidate sequences of step 2b: for every `elems` from 1 to the
working-set size, every `elems`-length permutation of the working set
(here: every permutation of every non-empty subset; the enumeration order
is unspecified in the source — a Python set is iterated). -/
def candidates {M : Type} (sentence : List M) : List (List M) :=
  ((sublistsS sentence).filter fun l => !l.isEmpty).flatMap perms

/-- Insertion into a length-descending list, used to model
`accepted.sort(key=len)` followed by popping from the end: the accepted
sequences are consumed longest first. -/
def insertByLen {M : Type} (s : List M) : List (List M) → List (List M)
  | [] => [s]
  | t :: ts => if t.length ≤ s.length then s :: t :: ts else t :: insertByLen s ts

/-- Length-descending ordering of the accepted sequences. -/
def sortByLenDesc {M : Type} : List (List M) → List (List M)
  | [] => []
  | s :: ss => insertByLen s (sortByLenDesc ss)

/-- The `while len(accepted) > 0` loop of step 2b: try `act` on each
sequence in order, stop at the first one whose result is not `None`. -/
def tryAct {M : Type} (act : List M → Option (List M)) :
    List (List M) → Option (List M × List M)
  | [] => none
  | s :: rest =>
    match act s with
    | some r => some (s, r)
    | none => tryAct act rest

/-- `sentence.add(m)` for every returned machine: a set insertion. -/
def addAll {M : Type} [DecidableEq M] (sentence : List M) (res : List M) : List M :=
  res.foldl (fun s m => if m ∈ s then s else s ++ [m]) sentence

/-- One construction's turn inside an outer iteration of
`activation_loop`: collect the accepted sequences, prefer longer ones,
commit to the first sequence `act` accepts, and rewrite the working set
by removing the consumed machines and adding the returned ones. -/
def constructionStep {M : Type} [DecidableEq M] (c : ConstrI M) (sentence : List M) :
    List M :=
  let accepted := (candidates sentence).filter c.check
  match tryAct c.act (sortByLenDesc accepted) with
  | none => sentence
  | some sr => addAll (sentence.filter fun m => decide (m ∉ sr.1)) sr.2

/-- One partition's rewrite inside `SpreadingActivation._link`:
`machine.remove(linker, partition)` followed by
`machine.append_if_not_there(to_add, partition)` for every other holding
machine. -/
def linkPartition (p : List Nat) (linker : Nat) (others : List Nat) : List Nat :=
  others.foldl (fun q x => if x ∈ q then q else q ++ [x]) (p.filter fun y => y != linker)

/-- `_link`'s effect on one machine: every partition found to contain the
linker (`machine.base.find(linker)`) is rewritten, the others are left
alone. -/
def linkMachine (parts : List (List Nat)) (linker : Nat) (others : List Nat) :
    List (List Nat) :=
  parts.map fun p => if linker ∈ p then linkPartition p linker others else p

/-- `SpreadingActivation._link(linker, machines)`: every holding machine
gets the linker removed and the other holding machines appended; no other
machine changes. -/
def linkCall (g : CS.Graph) (linker : Nat) (machs : List Nat) : CS.Graph :=
  fun i =>
    if i ∈ machs then linkMachine (g i) linker (machs.filter fun x => x != i) else g i

/-- Step 2 of the loop body: the linking-map entries held by more than
one machine — exactly those trigger a `_link` call and are collected in
`linker_to_remove`. -/
def linkCalls (linking : List (Nat × List Nat)) : List (Nat × List Nat) :=
  linking.filter fun kv => decide (1 < kv.2.length)

/-- Step 2 of the loop body: the linking map after the deletions of
`linker_to_remove` — the entries held by fewer than two machines
persist. -/
def linkRemaining (linking : List (Nat × List Nat)) : List (Nat × List Nat) :=
  linking.filter fun kv => !decide (1 < kv.2.length)

/-- Step 2 of the loop body: the machine graph after all `_link` calls of
the iteration, in order. -/
def linkGraphStep (g : CS.Graph) (linking : List (Nat × List Nat)) : CS.Graph :=
  (linkCalls linking).foldl (fun h kv => linkCall h kv.1 kv.2) g

end SA

/-!
## Theorems

One theorem per claim (with counterexamples and witnesses where the
status requires them), preceded by shared helper lemmas.
-/

lemma SA.activationLoop_total {σ : Type} (L : SA.Lexicon σ) (B : Nat)
    (hmono : ∀ s, L.activeCount s ≤ L.activeCount (L.runBody s))
    (hbound : ∀ s, L.activeCount s ≤ B) :
    ∀ n s, B + 1 - L.activeCount s < n →
      (SA.activationLoop L n s (L.activeCount s)).isSome := by
  intro n
  induction n with
  | zero => intro s h; omega
  | succ m ih =>
    intro s h
    rw [SA.activationLoop]
    by_cases h0 : L.unexpandedCount s = 0
    · simp [h0]
    · simp only [h0, if_false]
      by_cases h1 : L.activeCount (L.runBody s) = L.activeCount s
      · simp [h1]
      · simp only [h1, if_false]
        apply ih
        have h2 := hmono s
        have h3 := hbound (L.runBody s)
        omega

/-- C1 (counterexample): with `stuckLexicon` the loop `break`s after its
first iteration because the active-entry count is unchanged, even though
an unexpanded unit remains — so the claim that the loop stops only when
both conditions hold together is false. -/
theorem SA.activationLoop_stops_with_unexpanded :
    SA.activationLoop SA.stuckLexicon 5 () 1 = some ((), 1) ∧
      SA.stuckLexicon.unexpandedCount () ≠ 0 := by
  exact ⟨rfl, by decide⟩

/-- C1 (amended): the loop stops when no unexpanded units remain OR the
active-entry count equals the one recorded from the previous iteration —
a disjunction, not a conjunction: whenever the loop returns, one of the
two conditions holds at the exit state.  Termination holds under the
spreading-activation reading of a finite lexicon: if an iteration body
never decreases the active-entry count and the count is bounded by `B`,
the loop stops within `B + 2` iterations. -/
theorem SA.activationLoop_stop_or_and_terminates {σ : Type} (L : SA.Lexicon σ) (B : Nat)
    (hmono : ∀ s, L.activeCount s ≤ L.activeCount (L.runBody s))
    (hbound : ∀ s, L.activeCount s ≤ B) :
    (∀ fuel s la t laf, SA.activationLoop L fuel s la = some (t, laf) →
        L.unexpandedCount t = 0 ∨ L.activeCount t = laf) ∧
      ∀ s, (SA.activationLoop L (B + 2) s (L.activeCount s)).isSome := by
  constructor
  · intro fuel
    induction fuel with
    | zero => intro s la t laf h; simp [SA.activationLoop] at h
    | succ m ih =>
      intro s la t laf h
      rw [SA.activationLoop] at h
      by_cases h0 : L.unexpandedCount s = 0
      · simp [h0] at h
        exact Or.inl (h.1 ▸ h0)
      · simp only [h0, if_false] at h
        by_cases h1 : L.activeCount (L.runBody s) = la
        · simp [h1] at h
          obtain ⟨h2, h3⟩ := h
          subst h2
          subst h3
          exact Or.inr h1
        · simp only [h1, if_false] at h
          exact ih _ _ _ _ h
  · intro s
    exact SA.activationLoop_total L B hmono hbound (B + 2) s (by omega)

/-- C1 (witness): the amended theorem applied to the idle lexicon with
bound 0. -/
theorem SA.activationLoop_stop_or_witness :
    (∀ fuel s la t laf, SA.activationLoop SA.idleLexicon fuel s la = some (t, laf) →
        SA.idleLexicon.unexpandedCount t = 0 ∨ SA.idleLexicon.activeCount t = laf) ∧
      ∀ s, (SA.activationLoop SA.idleLexicon (0 + 2) s
        (SA.idleLexicon.activeCount s)).isSome :=
  SA.activationLoop_stop_or_and_terminates SA.idleLexicon 0
    (fun _ => Nat.le_refl _) (fun _ => Nat.le_refl _)

/-- C2 (code evaluated at the failing input): a verb construction whose
control accepts `[7]`; after `act([7])` has fired, `check([7])` still
returns `True` — the claim (and the spec's frame-exclusivity property)
says it must return `False`, but no code path ever sets `activated` to
`True`, so the flag guarding `check` stays `False` forever. -/
theorem PMC.verbConstruction_check_true_after_act :
    (((PMC.VerbConstruction.start PMC.cexVerbControl).act [7]).1.check [7]) = true := by
  rfl

/-- C4 (counterexample): `AVMConstruction.check` returns `True` on the
empty sequence although the construction's generated control is then in
its non-final initial state, so for AVM constructions check is not "true
iff the automaton ends in a final state". -/
theorem PMC.avmCheck_ignores_control :
    PMC.avmCheck PMC.cexAvm ([] : List Nat) = true ∧
      PMC.checkC (PMC.AVM.genControl PMC.cexAvm) ([] : List Nat) = false := by
  exact ⟨rfl, rfl⟩

/-- C4 (amended): for every construction using the inherited
`Construction.check` (the SEMANTIC and chunk variants), `check(seq)` is
true iff the dry run of `seq` through the control ends in a final state;
`AVMConstruction` however overrides `check` to return true
unconditionally, ignoring its automaton. -/
theorem PMC.check_iff_final_except_avm :
    (∀ (M : Type) (control : PMC.FSA M) (seq : List M),
        PMC.checkC control seq = true ↔
          ∃ st, control.runSeq seq = some st ∧ st ∈ control.finals) ∧
      ∀ (M : Type) (avm : PMC.AVM M) (seq : List M), PMC.avmCheck avm seq = true := by
  constructor
  · intro M control seq
    unfold PMC.checkC PMC.FSA.inFinalAt
    cases h : control.runSeq seq with
    | none => simp
    | some st => simp [List.contains, List.elem_iff]
  · intro M avm seq
    rfl

/-- C3 (counterexample): a construction over the rule `["A", "B"]` is
built without any error (`__init__` performs no validation at all), and
the ambiguity — a machine whose control satisfies both slots — surfaces
as the raised `NotImplementedError` inside `__match__`, i.e. during
matching in the search loop, not at construction-build time. -/
theorem CS.ambiguity_raises_in_match :
    (CS.mkConstruction "X" ["A", "B"] "A").rule_right = ["A", "B"] ∧
      CS.matchC (fun (_ : Nat) (_ : CS.Ctrl) => true) ["A", "B"] [0, 1] =
        .error () := by
  exact ⟨rfl, rfl⟩

lemma CS.updatePairs_mem {M : Type} (ps : List (CS.Ctrl × M)) (k : CS.Ctrl) (m : M) :
    ∀ kv ∈ CS.updatePairs ps k m, kv.2 = m ∨ kv ∈ ps := by
  induction ps with
  | nil =>
    intro kv h
    simp [CS.updatePairs] at h
    exact Or.inl (by rw [h])
  | cons hd tl ih =>
    intro kv h
    rw [CS.updatePairs] at h
    by_cases hq : hd.1 = k
    · simp [hq] at h
      rcases h with h | h
      · exact Or.inl (by rw [h])
      · exact Or.inr (List.mem_cons_of_mem _ h)
    · simp [hq] at h
      rcases h with h | h
      · exact Or.inr (by rw [h]; exact List.mem_cons_self _ _)
      · rcases ih kv h with h2 | h2
        · exact Or.inl h2
        · exact Or.inr (List.mem_cons_of_mem _ h2)

/-- C10: for every instance of the base `Construction` class (the plain
SEMANTIC variant, `act` not overridden) and every unit sequence, `act`
returns `None` — its body runs the control in effecting mode and falls
off the end — and therefore `run` returns `None` whether or not `check`
succeeded, so a base construction never produces a usable change in the
activation loop. -/
theorem PMC.baseConstruction_act_run_none {M : Type} (control : PMC.FSA M)
    (seq : List M) :
    (PMC.actC control seq).2 = none ∧ PMC.runC control seq = none := by
  refine ⟨rfl, ?_⟩
  unfold PMC.runC
  split <;> rfl

lemma CS.matchLoop_ambiguous_error {M : Type} [DecidableEq M]
    (isA : M → CS.Ctrl → Bool) (rule : List CS.Ctrl) :
    ∀ (ms : List M) (pairs : List (CS.Ctrl × M)), ms.Nodup →
      (∀ kv ∈ pairs, kv.2 ∉ ms) →
      (∀ m ∈ ms, (rule.filter fun c => isA m c) ≠ []) →
      (∃ m ∈ ms, 1 < (rule.filter fun c => isA m c).length) →
      CS.matchLoop isA rule ms pairs = .error () := by
  intro ms
  induction ms with
  | nil =>
    intro pairs _ _ _ hex
    simp at hex
  | cons m rest ih =>
    intro pairs hnd hv hall hex
    rw [CS.matchLoop]
    by_cases hgt : 1 < (rule.filter fun c => isA m c).length
    · simp [hgt]
    · simp only [hgt, if_false]
      have hne := hall m (List.mem_cons_self _ _)
      cases hpp : rule.filter fun c => isA m c with
      | nil => exact absurd hpp hne
      | cons c cs =>
        have hnotin : (pairs.any fun kv => decide (kv.2 = m)) = false := by
          rw [List.any_eq_false]
          intro kv hkv
          simp only [decide_eq_true_eq]
          intro hkm
          exact hv kv hkv (hkm ▸ List.mem_cons_self _ _)
        simp only [hnotin, Bool.false_eq_true, if_false]
        have hex2 : ∃ x ∈ rest, 1 < (rule.filter fun c => isA x c).length := by
          rcases hex with ⟨x, hx, hgt2⟩
          rcases List.mem_cons.mp hx with hx | hx
          · exact absurd (hx ▸ hgt2) (by rw [hpp] at hgt ⊢; exact hgt)
          · exact ⟨x, hx, hgt2⟩
        apply ih
        · exact hnd.of_cons
        · intro kv hkv
          rcases CS.updatePairs_mem pairs c m kv hkv with h2 | h2
          · rw [h2]
            exact (List.nodup_cons.mp hnd).1
          · intro hmem
            exact hv kv h2 (List.mem_cons_of_mem _ hmem)
        · intro x hx
          exact hall x (List.mem_cons_of_mem _ hx)
        · exact hex2

/-- C3 (amended): a unit satisfying more than one slot pattern of a
simple construction's right-hand rule is rejected as a fatal error — the
`NotImplementedError` raised by `__match__` — but during matching inside
the search loop, when the ambiguous unit is processed, not at
construction-build time (`__init__` performs no validation).  Precisely:
if the arity matches, every machine satisfies at least one slot and some
machine satisfies more than one, `__match__` raises. -/
theorem CS.match_raises_on_ambiguous {M : Type} [DecidableEq M]
    (isA : M → CS.Ctrl → Bool) (rule : List CS.Ctrl) (ms : List M)
    (hnd : ms.Nodup)
    (hlen : ms.length = rule.length)
    (hall : ∀ m ∈ ms, (rule.filter fun c => isA m c) ≠ [])
    (hex : ∃ m ∈ ms, 1 < (rule.filter fun c => isA m c).length) :
    CS.matchC isA rule ms = .error () := by
  unfold CS.matchC
  rw [if_pos hlen]
  rw [CS.matchLoop_ambiguous_error isA rule ms [] hnd (by simp) hall hex]

/-- C3 (witness): the amended theorem applied to a machine satisfying
both slots of the rule `["A", "B"]`. -/
theorem CS.match_raises_witness :
    CS.matchC (fun (m : Nat) (c : CS.Ctrl) => m == 0 || c == "A") ["A", "B"] [0, 1] =
      .error () :=
  CS.match_raises_on_ambiguous _ _ _ (by decide) (by decide) (by decide) (by decide)

lemma PMC.collect_no_error :
    ∀ (t : List (String × PMC.Pat)) (d : List (String × PMC.Dat)) (g : PMC.Greeks),
      PMC.compatDict t d = true → ∃ r, PMC.collectVarVals t d g = .ok r := by
  intro t d g
  induction t, d, g using PMC.collectVarVals.induct with
  | case1 d g =>
    intro _
    exact ⟨some g, by rw [PMC.collectVarVals]⟩
  | case2 key tv trest ddata greeks hlook =>
    intro _
    rw [PMC.collectVarVals, hlook]
    exact ⟨none, rfl⟩
  | case3 key trest ddata greeks subP dsubD hlook ih =>
    intro hc
    simp only [PMC.compatDict, hlook] at hc
    have hr := ih hc
    simpa only [PMC.collectVarVals, hlook] using hr
  | case4 key trest ddata greeks subP sval hlook =>
    intro hc
    simp only [PMC.compatDict, hlook] at hc
    exact (Bool.false_ne_true hc).elim
  | case5 key trest ddata greeks dval hlook s hempty =>
    intro hc
    simp only [PMC.compatDict, hlook, hempty] at hc
    simp at hc
  | case6 key trest ddata greeks dval hlook s hne hat ih =>
    intro hc
    simp only [PMC.compatDict, hlook, Bool.and_eq_true, Bool.not_eq_eq_eq_not,
      Bool.not_true] at hc
    have hr := ih hc.2
    have hse : s.isEmpty = false := by
      cases hse : s.isEmpty with
      | false => rfl
      | true => exact absurd hse hne
    simp only [PMC.collectVarVals, hlook, hse, Bool.false_eq_true, if_false, hat, if_true]
    exact hr
  | case7 key trest ddata greeks dval hlook s hne hat ih =>
    intro hc
    simp only [PMC.compatDict, hlook, Bool.and_eq_true, Bool.not_eq_eq_eq_not,
      Bool.not_true] at hc
    have hr := ih hc.2
    have hse : s.isEmpty = false := by
      cases hse : s.isEmpty with
      | false => rfl
      | true => exact absurd hse hne
    simp only [PMC.collectVarVals, hlook, hse, Bool.false_eq_true, if_false, hat]
    exact hr

lemma PMC.collectAll_no_error :
    ∀ (l : List (List (String × PMC.Pat) × List (String × PMC.Dat))) (g : PMC.Greeks),
      (∀ pd ∈ l, PMC.compatDict pd.1 pd.2 = true) →
      ∃ r, PMC.collectAll l g = .ok r := by
  intro l
  induction l with
  | nil =>
    intro g _
    exact ⟨some g, rfl⟩
  | cons pd rest ih =>
    intro g hc
    obtain ⟨r, hr⟩ := PMC.collect_no_error pd.1 pd.2 g (hc pd (List.mem_cons_self _ _))
    rw [PMC.collectAll]
    cases r with
    | none =>
      rw [hr]
      exact ⟨none, rfl⟩
    | some g2 =>
      obtain ⟨r2, hr2⟩ := ih g2 fun x hx => hc x (List.mem_cons_of_mem _ hx)
      rw [hr]
      exact ⟨r2, hr2⟩

/-- C9: for every chunk (NP) construction and every sequence whose length
equals the rule's arity (so the `assert` passes) and whose KR data is
shape-compatible with the patterns, `last_check` returns an ordinary
boolean — no exception — and whenever some pattern variable has collected
more than one distinct observed value across the sequence's units, that
boolean is `False`. -/
theorem PMC.npLastCheck_conflict_false
    (patterns : List (List (String × PMC.Pat))) (seq : List (List (String × PMC.Dat)))
    (hlen : seq.length = patterns.length)
    (hc : ∀ pd ∈ patterns.zip seq, PMC.compatDict pd.1 pd.2 = true) :
    ∃ b, PMC.lastCheckNP patterns seq = .ok b ∧
      ∀ g, PMC.collectAll (patterns.zip seq) [] = .ok (some g) →
        PMC.hasConflict g = true → b = false := by
  obtain ⟨r, hr⟩ := PMC.collectAll_no_error (patterns.zip seq) [] hc
  cases r with
  | none =>
    refine ⟨false, ?_, ?_⟩
    · unfold PMC.lastCheckNP
      rw [if_pos hlen, hr]
    · intro g hg
      rw [hr] at hg
      simp at hg
  | some g0 =>
    refine ⟨!PMC.hasConflict g0, ?_, ?_⟩
    · unfold PMC.lastCheckNP
      rw [if_pos hlen, hr]
    · intro g hg hcf
      rw [hr] at hg
      have hg0 : g0 = g := by
        simpa using hg
      rw [hg0, hcf]
      rfl

/-- C9 (witness): two slots whose pattern requires the variable `@x` on
the key `x`, against units observing `a` and `b`. -/
theorem PMC.npLastCheck_witness :
    ∃ b,
      PMC.lastCheckNP [[("x", .leaf "@x")], [("x", .leaf "@x")]]
        [[("x", .leaf "a")], [("x", .leaf "b")]] = .ok b ∧
      ∀ g,
        PMC.collectAll
          ([[("x", PMC.Pat.leaf "@x")], [("x", PMC.Pat.leaf "@x")]].zip
            [[("x", PMC.Dat.leaf "a")], [("x", PMC.Dat.leaf "b")]]) [] = .ok (some g) →
        PMC.hasConflict g = true → b = false :=
  PMC.npLastCheck_conflict_false _ _ (by decide)
    (by simp [PMC.compatDict]; decide)

lemma CS.splitAtChar_append (c : Char) (l r : List Char) (h : c ∉ l) :
    CS.splitAtChar c (l ++ c :: r) = some (l, r) := by
  induction l with
  | nil =>
    simp [CS.splitAtChar]
  | cons x xs ih =>
    rw [List.cons_append, CS.splitAtChar]
    have hx : ¬x = c := fun he => h (he ▸ List.mem_cons_self _ _)
    rw [if_neg hx, ih fun hm => h (List.mem_cons_of_mem _ hm)]
    rfl

lemma CS.parseAppend_shape (into what : String)
    (hi : Char.ofNat 91 ∉ into.toList) (hw : Char.ofNat 93 ∉ what.toList) :
    CS.parseAppend (into ++ "[" ++ what ++ "]") = some (into, what) := by
  have h1 : (into ++ "[" ++ what ++ "]").toList
      = into.toList ++ Char.ofNat 91 :: (what.toList ++ Char.ofNat 93 :: []) := by
    show (into ++ "[" ++ what ++ "]").data
      = into.data ++ Char.ofNat 91 :: (what.data ++ Char.ofNat 93 :: [])
    simp [String.data_append]
  simp only [CS.parseAppend, h1, CS.splitAtChar_append _ _ _ hi,
    CS.splitAtChar_append _ _ _ hw]
  rfl

/-- C8: for a simple construction whose command code has the shape
`INTO[WHAT]` the factory produces the Merge (`AppendRegexCommand`)
command, and running that command on a matched slot-to-unit mapping
appends the `WHAT`-tagged unit at partition index 1 of the `INTO`-tagged
unit (leaving the other partitions and all other machines untouched) and
returns the one-element sequence holding exactly the mutated `INTO`
unit. -/
theorem CS.appendCommand_spec (into what : String) (terminals : List CS.Ctrl)
    (g : CS.Graph) (pairs : List (CS.Ctrl × Nat)) (mi mw : Nat)
    (hi : Char.ofNat 91 ∉ into.toList) (hw : Char.ofNat 93 ∉ what.toList)
    (hmi : pairs.lookup into = some mi) (hmw : pairs.lookup what = some mw)
    (hlen : 1 < (g mi).length) :
    CS.Command.getInstance (into ++ "[" ++ what ++ "]") terminals =
        some (.appendRegex into what) ∧
      CS.Command.run (.appendRegex into what) g pairs =
        .ok (CS.Graph.appendPart g mi 1 mw, some [mi]) ∧
      (CS.Graph.appendPart g mi 1 mw mi).getD 1 [] = (g mi).getD 1 [] ++ [mw] ∧
      (∀ j, j ≠ 1 → (CS.Graph.appendPart g mi 1 mw mi).getD j [] = (g mi).getD j []) ∧
      ∀ i, i ≠ mi → CS.Graph.appendPart g mi 1 mw i = g i := by
  refine ⟨?_, ?_, ?_, ?_, ?_⟩
  · unfold CS.Command.getInstance
    rw [CS.parseAppend_shape into what hi hw]
  · simp only [CS.Command.run, hmi, hmw]
  · unfold CS.Graph.appendPart CS.appendAt
    rw [if_pos rfl]
    simp [List.getD_eq_getElem?_getD, List.getElem?_set_self hlen]
  · intro j hj
    unfold CS.Graph.appendPart CS.appendAt
    rw [if_pos rfl]
    simp [List.getD_eq_getElem?_getD, List.getElem?_set_ne (Ne.symm hj)]
  · intro i hig
    unfold CS.Graph.appendPart
    rw [if_neg hig]

/-- C8 (witness): Example 1 of the spec — rule `NP / DET ADJ NOUN /
NOUN[DET]`, machines 0 (DET), 1 (ADJ), 2 (NOUN); the DET machine is
spliced into partition 1 of the NOUN machine and only the NOUN machine is
returned. -/
theorem CS.appendCommand_witness :
    CS.Command.getInstance ("NOUN" ++ "[" ++ "DET" ++ "]") ["DET", "ADJ", "NOUN"] =
        some (.appendRegex "NOUN" "DET") ∧
      CS.Command.run (.appendRegex "NOUN" "DET")
          (fun i => if i = 2 then [[9], [5]] else [[], []])
          [("DET", 0), ("ADJ", 1), ("NOUN", 2)] =
        .ok (CS.Graph.appendPart (fun i => if i = 2 then [[9], [5]] else [[], []]) 2 1 0,
          some [2]) ∧
      (CS.Graph.appendPart (fun i => if i = 2 then [[9], [5]] else [[], []]) 2 1 0 2).getD
          1 [] =
        ((fun i : Nat => if i = 2 then [[9], [5]] else [[], []]) 2).getD 1 [] ++ [0] ∧
      (∀ j, j ≠ 1 →
        (CS.Graph.appendPart (fun i => if i = 2 then [[9], [5]] else [[], []]) 2 1 0 2).getD
            j [] =
          ((fun i : Nat => if i = 2 then [[9], [5]] else [[], []]) 2).getD j []) ∧
      ∀ i, i ≠ 2 →
        CS.Graph.appendPart (fun i => if i = 2 then [[9], [5]] else [[], []]) 2 1 0 i =
          (fun i : Nat => if i = 2 then [[9], [5]] else [[], []]) i :=
  CS.appendCommand_spec "NOUN" "DET" ["DET", "ADJ", "NOUN"]
    (fun i => if i = 2 then [[9], [5]] else [[], []])
    [("DET", 0), ("ADJ", 1), ("NOUN", 2)] 2 0
    (by decide) (by decide) (by decide) (by decide) (by decide)

lemma CS.updatePairs_keys {M : Type} (ps : List (CS.Ctrl × M)) (k : CS.Ctrl) (m : M) :
    (CS.updatePairs ps k m).map Prod.fst = CS.insertKey (ps.map Prod.fst) k := by
  induction ps with
  | nil =>
    simp [CS.updatePairs, CS.insertKey]
  | cons hd tl ih =>
    rw [CS.updatePairs]
    by_cases hq : hd.1 = k
    · rw [if_pos hq, CS.insertKey, if_pos (by simp [hq])]
      simp [hq]
    · have hq2 : ¬k = hd.1 := fun h => hq h.symm
      rw [if_neg hq]
      simp only [List.map_cons, ih, CS.insertKey]
      by_cases hk : k ∈ tl.map Prod.fst
      · simp [hk]
      · simp [hk, hq2]

lemma CS.insertKey_length (ks : List CS.Ctrl) (k : CS.Ctrl) :
    (CS.insertKey ks k).length = if k ∈ ks then ks.length else ks.length + 1 := by
  rw [CS.insertKey]
  by_cases h : k ∈ ks
  · simp [h]
  · simp [h]

lemma CS.insertKey_foldl_le :
    ∀ (hs ks : List CS.Ctrl), (hs.foldl CS.insertKey ks).length ≤ ks.length + hs.length := by
  intro hs
  induction hs with
  | nil => intro ks; simp
  | cons h t ih =>
    intro ks
    rw [List.foldl_cons]
    have h1 := ih (CS.insertKey ks h)
    have h2 := CS.insertKey_length ks h
    by_cases hm : h ∈ ks
    · rw [if_pos hm] at h2
      simp [List.length_cons]
      omega
    · rw [if_neg hm] at h2
      simp [List.length_cons]
      omega

lemma CS.insertKey_foldl_eq_append :
    ∀ (hs ks : List CS.Ctrl), hs.Nodup → (∀ h ∈ hs, h ∉ ks) →
      hs.foldl CS.insertKey ks = ks ++ hs := by
  intro hs
  induction hs with
  | nil => intro ks _ _; simp
  | cons h t ih =>
    intro ks hnd hni
    rw [List.foldl_cons, CS.insertKey, if_neg (hni h (List.mem_cons_self _ _))]
    rw [ih (ks ++ [h]) hnd.of_cons]
    · simp
    · intro x hx
      rw [List.mem_append]
      rintro (hx2 | hx2)
      · exact hni x (List.mem_cons_of_mem _ hx) hx2
      · rw [List.mem_singleton] at hx2
        exact (List.nodup_cons.mp hnd).1 (hx2 ▸ hx)

lemma CS.insertKey_foldl_max :
    ∀ (hs ks : List CS.Ctrl),
      (hs.foldl CS.insertKey ks).length = ks.length + hs.length →
      hs.Nodup ∧ ∀ h ∈ hs, h ∉ ks := by
  intro hs
  induction hs with
  | nil => intro ks _; exact ⟨List.nodup_nil, by simp⟩
  | cons h t ih =>
    intro ks hlen
    rw [List.foldl_cons] at hlen
    have hle := CS.insertKey_foldl_le t (CS.insertKey ks h)
    have h2 := CS.insertKey_length ks h
    by_cases hm : h ∈ ks
    · rw [if_pos hm] at h2
      rw [hlen] at hle
      simp [List.length_cons] at hle
      omega
    · rw [if_neg hm] at h2
      have h3 : (t.foldl CS.insertKey (CS.insertKey ks h)).length =
          (CS.insertKey ks h).length + t.length := by
        simp [List.length_cons] at hlen
        omega
      obtain ⟨hnd, hni⟩ := ih (CS.insertKey ks h) h3
      rw [CS.insertKey, if_neg hm] at hni
      refine ⟨List.nodup_cons.mpr ⟨?_, hnd⟩, ?_⟩
      · intro hht
        exact hni h hht (by simp)
      · intro x hx
        rcases List.mem_cons.mp hx with rfl | hx2
        · exact hm
        · intro hxk
          exact hni x hx2 (by simp [hxk])

lemma CS.head?_firstSlot {M : Type} (isA : M → CS.Ctrl → Bool) (rule : List CS.Ctrl)
    (m : M) (h : (rule.filter fun c => isA m c).length = 1) :
    (rule.filter fun c => isA m c).head? = some (CS.firstSlot isA rule m) := by
  rcases List.length_eq_one.mp h with ⟨c, hc⟩
  rw [CS.firstSlot, hc]
  rfl

lemma CS.matchLoop_ok_len_one {M : Type} [DecidableEq M] (isA : M → CS.Ctrl → Bool)
    (rule : List CS.Ctrl) :
    ∀ (ms : List M) (pairs res), CS.matchLoop isA rule ms pairs = .ok (some res) →
      ∀ m ∈ ms, (rule.filter fun c => isA m c).length = 1 := by
  intro ms
  induction ms with
  | nil =>
    intro pairs res _ m hm
    simp at hm
  | cons x rest ih =>
    intro pairs res h m hm
    simp only [CS.matchLoop] at h
    by_cases hgt : 1 < (rule.filter fun c => isA x c).length
    · rw [if_pos hgt] at h
      simp at h
    · rw [if_neg hgt] at h
      cases hpp : rule.filter fun c => isA x c with
      | nil =>
        rw [hpp] at h
        simp at h
      | cons c cs =>
        rw [hpp] at h
        rcases List.mem_cons.mp hm with rfl | hm2
        · rw [hpp] at hgt ⊢
          simp only [List.length_cons] at hgt ⊢
          omega
        · cases ha : pairs.any fun kv => decide (kv.2 = x) with
          | true =>
            rw [ha] at h
            simp at h
          | false =>
            rw [ha] at h
            simp at h
            exact ih _ _ h m hm2

lemma CS.matchLoop_ok_keys {M : Type} [DecidableEq M] (isA : M → CS.Ctrl → Bool)
    (rule : List CS.Ctrl) :
    ∀ (ms : List M) (pairs res), CS.matchLoop isA rule ms pairs = .ok (some res) →
      res.map Prod.fst =
        ms.foldl (fun ks m => CS.insertKey ks (CS.firstSlot isA rule m))
          (pairs.map Prod.fst) := by
  intro ms
  induction ms with
  | nil =>
    intro pairs res h
    rw [CS.matchLoop] at h
    simp at h
    rw [h]
    simp
  | cons x rest ih =>
    intro pairs res h
    simp only [CS.matchLoop] at h
    by_cases hgt : 1 < (rule.filter fun c => isA x c).length
    · rw [if_pos hgt] at h
      simp at h
    · rw [if_neg hgt] at h
      cases hpp : rule.filter fun c => isA x c with
      | nil =>
        rw [hpp] at h
        simp at h
      | cons c cs =>
        rw [hpp] at h
        cases ha : pairs.any fun kv => decide (kv.2 = x) with
        | true =>
          rw [ha] at h
          simp at h
        | false =>
          rw [ha] at h
          simp at h
          have hfs : CS.firstSlot isA rule x = c := by
            rw [CS.firstSlot, hpp]
            rfl
          rw [List.foldl_cons, ih _ _ h, CS.updatePairs_keys, hfs]

lemma CS.matchLoop_ok_exists {M : Type} [DecidableEq M] (isA : M → CS.Ctrl → Bool)
    (rule : List CS.Ctrl) :
    ∀ (ms : List M) (pairs : List (CS.Ctrl × M)), ms.Nodup →
      (∀ kv ∈ pairs, kv.2 ∉ ms) →
      (∀ m ∈ ms, (rule.filter fun c => isA m c).length = 1) →
      ∃ res, CS.matchLoop isA rule ms pairs = .ok (some res) := by
  intro ms
  induction ms with
  | nil =>
    intro pairs _ _ _
    exact ⟨pairs, by rw [CS.matchLoop]⟩
  | cons x rest ih =>
    intro pairs hnd hv hall
    have h1 := hall x (List.mem_cons_self _ _)
    rcases List.length_eq_one.mp h1 with ⟨c, hc⟩
    have ha : (pairs.any fun kv => decide (kv.2 = x)) = false := by
      rw [List.any_eq_false]
      intro kv hkv
      simp only [decide_eq_true_eq]
      intro he
      exact hv kv hkv (he ▸ List.mem_cons_self _ _)
    have hv2 : ∀ kv ∈ CS.updatePairs pairs c x, kv.2 ∉ rest := by
      intro kv hkv
      rcases CS.updatePairs_mem pairs c x kv hkv with h2 | h2
      · rw [h2]
        exact (List.nodup_cons.mp hnd).1
      · intro hmem
        exact hv kv h2 (List.mem_cons_of_mem _ hmem)
    have hall2 : ∀ m ∈ rest, (rule.filter fun c2 => isA m c2).length = 1 :=
      fun m hm => hall m (List.mem_cons_of_mem _ hm)
    obtain ⟨res, hres⟩ := ih (CS.updatePairs pairs c x) hnd.of_cons hv2 hall2
    refine ⟨res, ?_⟩
    simpa only [CS.matchLoop, hc, List.length_singleton, lt_self_iff_false, if_false, ha,
      Bool.false_eq_true] using hres

lemma CS.matchLoop_no_error {M : Type} [DecidableEq M] (isA : M → CS.Ctrl → Bool)
    (rule : List CS.Ctrl) :
    ∀ (ms : List M) (pairs), (∀ m ∈ ms, (rule.filter fun c => isA m c).length ≤ 1) →
      ∀ e, CS.matchLoop isA rule ms pairs ≠ .error e := by
  intro ms
  induction ms with
  | nil =>
    intro pairs _ e h
    rw [CS.matchLoop] at h
    simp at h
  | cons x rest ih =>
    intro pairs hle e h
    simp only [CS.matchLoop] at h
    have hgt : ¬1 < (rule.filter fun c => isA x c).length := by
      have := hle x (List.mem_cons_self _ _)
      omega
    rw [if_neg hgt] at h
    cases hpp : rule.filter fun c => isA x c with
    | nil =>
      rw [hpp] at h
      simp at h
    | cons c cs =>
      rw [hpp] at h
      cases ha : pairs.any fun kv => decide (kv.2 = x) with
      | true =>
        rw [ha] at h
        simp at h
      | false =>
        rw [ha] at h
        simp at h
        exact ih _ (fun m hm => hle m (List.mem_cons_of_mem _ hm)) e h

/-- C5: for every simple construction (right-hand rule plus `is_a` test)
and every duplicate-free candidate sequence in which no unit satisfies
more than one slot (the ambiguous case raises instead — claim C3),
`__match__` succeeds with a slot-to-unit dictionary exactly when the
sequence length equals the rule arity, every unit's category satisfies
exactly one slot and no two units compete for the same slot — i.e. when
the unit-to-slot assignment is a bijection; and when that condition
fails, `__match__` returns `False` and `do` returns `None` for every
command whatsoever (the command is never run). -/
theorem CS.match_success_iff_bijection {M : Type} [DecidableEq M]
    (isA : M → CS.Ctrl → Bool) (rule : List CS.Ctrl) (ms : List M)
    (hnd : ms.Nodup)
    (hamb : ∀ m ∈ ms, (rule.filter fun c => isA m c).length ≤ 1) :
    ((∃ pairs, CS.matchC isA rule ms = .ok (some pairs)) ↔
        CS.specBijection isA rule ms) ∧
      (¬CS.specBijection isA rule ms →
        CS.matchC isA rule ms = .ok none ∧
          ∀ run, CS.doC isA rule run ms = .ok none) := by
  have main : (∃ pairs, CS.matchC isA rule ms = .ok (some pairs)) ↔
      CS.specBijection isA rule ms := by
    constructor
    · rintro ⟨pairs, hp⟩
      unfold CS.matchC at hp
      by_cases hlen : ms.length = rule.length
      case neg =>
        rw [if_neg hlen] at hp
        simp at hp
      rw [if_pos hlen] at hp
      cases hml : CS.matchLoop isA rule ms [] with
      | error e =>
        rw [hml] at hp
        simp at hp
      | ok o =>
        cases o with
        | none =>
          rw [hml] at hp
          simp at hp
        | some res =>
          rw [hml] at hp
          have hp2 : (if res.length = rule.length then (Except.ok (some res) :
              Except Unit (Option (List (CS.Ctrl × M)))) else .ok none) =
              .ok (some pairs) := hp
          by_cases hrl : res.length = rule.length
          case neg =>
            rw [if_neg hrl] at hp2
            simp at hp2
          have hall := CS.matchLoop_ok_len_one isA rule ms [] res hml
          have hkeys := CS.matchLoop_ok_keys isA rule ms [] res hml
          rw [← List.foldl_map (CS.firstSlot isA rule) CS.insertKey ms] at hkeys
          simp only [List.map_nil] at hkeys
          have hlen2 : ((ms.map (CS.firstSlot isA rule)).foldl CS.insertKey []).length =
              ([] : List CS.Ctrl).length + (ms.map (CS.firstSlot isA rule)).length := by
            rw [← hkeys]
            simp [List.length_map, hrl, ← hlen]
          obtain ⟨hmnd, _⟩ := CS.insertKey_foldl_max _ _ hlen2
          refine ⟨hlen, hall, ?_⟩
          intro m hm n hn hne
          rw [CS.head?_firstSlot isA rule m (hall m hm),
            CS.head?_firstSlot isA rule n (hall n hn)]
          intro hso
          have hfs : CS.firstSlot isA rule m = CS.firstSlot isA rule n :=
            Option.some_injective _ hso
          exact hne (List.inj_on_of_nodup_map hmnd hm hn hfs)
    · rintro ⟨hlen, hall, hdist⟩
      have hinj : ∀ x ∈ ms, ∀ y ∈ ms,
          CS.firstSlot isA rule x = CS.firstSlot isA rule y → x = y := by
        intro x hx y hy hf
        by_contra hne
        apply hdist x hx y hy hne
        rw [CS.head?_firstSlot isA rule x (hall x hx),
          CS.head?_firstSlot isA rule y (hall y hy), hf]
      have hmapnd : (ms.map (CS.firstSlot isA rule)).Nodup := List.Nodup.map_on hinj hnd
      obtain ⟨res, hres⟩ := CS.matchLoop_ok_exists isA rule ms [] hnd (by simp) hall
      have hkeys := CS.matchLoop_ok_keys isA rule ms [] res hres
      rw [← List.foldl_map (CS.firstSlot isA rule) CS.insertKey ms] at hkeys
      rw [CS.insertKey_foldl_eq_append _ _ hmapnd (by simp)] at hkeys
      have hrl : res.length = rule.length := by
        have h2 := congrArg List.length hkeys
        simp only [List.length_map, List.length_append, List.map_nil,
          List.length_nil] at h2
        omega
      refine ⟨res, ?_⟩
      unfold CS.matchC
      rw [if_pos hlen, hres]
      simp [hrl]
  refine ⟨main, ?_⟩
  intro hns
  have hnm : CS.matchC isA rule ms = .ok none := by
    unfold CS.matchC
    by_cases hlen : ms.length = rule.length
    · rw [if_pos hlen]
      cases hml : CS.matchLoop isA rule ms [] with
      | error e => exact absurd hml (CS.matchLoop_no_error isA rule ms [] hamb e)
      | ok o =>
        cases o with
        | none => rfl
        | some res =>
          by_cases hrl : res.length = rule.length
          · exfalso
            apply hns
            apply main.mp
            refine ⟨res, ?_⟩
            unfold CS.matchC
            rw [if_pos hlen, hml]
            simp [hrl]
          · simp [hrl]
    · rw [if_neg hlen]
  refine ⟨hnm, ?_⟩
  intro run
  unfold CS.doC
  rw [hnm]

/-- C5 (witness): the rule `["A", "B"]` against machines 0 (satisfying
only slot A) and 1 (satisfying only slot B). -/
theorem CS.match_success_witness :
    ((∃ pairs,
        CS.matchC (fun (m : Nat) (c : CS.Ctrl) => (m == 0 && c == "A") || (m == 1 && c == "B"))
          ["A", "B"] [0, 1] = .ok (some pairs)) ↔
      CS.specBijection (fun (m : Nat) (c : CS.Ctrl) => (m == 0 && c == "A") || (m == 1 && c == "B"))
        ["A", "B"] [0, 1]) ∧
    (¬CS.specBijection
        (fun (m : Nat) (c : CS.Ctrl) => (m == 0 && c == "A") || (m == 1 && c == "B"))
        ["A", "B"] [0, 1] →
      CS.matchC (fun (m : Nat) (c : CS.Ctrl) => (m == 0 && c == "A") || (m == 1 && c == "B"))
          ["A", "B"] [0, 1] = .ok none ∧
        ∀ run,
          CS.doC (fun (m : Nat) (c : CS.Ctrl) => (m == 0 && c == "A") || (m == 1 && c == "B"))
            ["A", "B"] run [0, 1] = .ok none) :=
  CS.match_success_iff_bijection _ ["A", "B"] [0, 1] (by decide) (by decide)

lemma SA.insertByLen_perm {M : Type} (s : List M) (l : List (List M)) :
    (SA.insertByLen s l).Perm (s :: l) := by
  induction l with
  | nil => rw [SA.insertByLen]
  | cons t ts ih =>
    rw [SA.insertByLen]
    by_cases hle : t.length ≤ s.length
    · rw [if_pos hle]
    · rw [if_neg hle]
      exact (List.Perm.cons t ih).trans (List.Perm.swap s t ts)

lemma SA.insertByLen_sorted {M : Type} (s : List M) (l : List (List M))
    (h : l.Pairwise fun a b => b.length ≤ a.length) :
    (SA.insertByLen s l).Pairwise fun a b => b.length ≤ a.length := by
  induction l with
  | nil =>
    rw [SA.insertByLen]
    exact List.pairwise_singleton _ _
  | cons t ts ih =>
    rw [SA.insertByLen]
    by_cases hle : t.length ≤ s.length
    · rw [if_pos hle]
      refine List.Pairwise.cons ?_ h
      intro y hy
      rcases List.mem_cons.mp hy with rfl | hy2
      · exact hle
      · exact le_trans (List.rel_of_pairwise_cons h hy2) hle
    · rw [if_neg hle]
      refine List.Pairwise.cons ?_ (ih (List.Pairwise.of_cons h))
      intro y hy
      have hy2 := (SA.insertByLen_perm s ts).mem_iff.mp hy
      rcases List.mem_cons.mp hy2 with rfl | hy3
      · omega
      · exact List.rel_of_pairwise_cons h hy3

lemma SA.sortByLenDesc_perm {M : Type} :
    ∀ l : List (List M), (SA.sortByLenDesc l).Perm l := by
  intro l
  induction l with
  | nil => rw [SA.sortByLenDesc]
  | cons s ss ih =>
    rw [SA.sortByLenDesc]
    exact (SA.insertByLen_perm s (SA.sortByLenDesc ss)).trans (List.Perm.cons s ih)

lemma SA.sortByLenDesc_sorted {M : Type} :
    ∀ l : List (List M),
      (SA.sortByLenDesc l).Pairwise fun a b => b.length ≤ a.length := by
  intro l
  induction l with
  | nil =>
    rw [SA.sortByLenDesc]
    exact List.Pairwise.nil
  | cons s ss ih =>
    rw [SA.sortByLenDesc]
    exact SA.insertByLen_sorted s _ ih

lemma SA.tryAct_mem {M : Type} (act : List M → Option (List M)) :
    ∀ (l : List (List M)) (s r : List M), SA.tryAct act l = some (s, r) →
      s ∈ l ∧ act s = some r := by
  intro l
  induction l with
  | nil =>
    intro s r h
    rw [SA.tryAct] at h
    cases h
  | cons x rest ih =>
    intro s r h
    rw [SA.tryAct] at h
    cases hx : act x with
    | some r0 =>
      rw [hx] at h
      simp at h
      exact ⟨h.1 ▸ List.mem_cons_self _ _, h.1 ▸ (h.2 ▸ hx)⟩
    | none =>
      rw [hx] at h
      simp at h
      obtain ⟨hmem, hact⟩ := ih s r h
      exact ⟨List.mem_cons_of_mem _ hmem, hact⟩

lemma SA.tryAct_earlier_fail {M : Type} (act : List M → Option (List M)) :
    ∀ (l : List (List M)) (s r : List M),
      (l.Pairwise fun a b => b.length ≤ a.length) →
      SA.tryAct act l = some (s, r) →
      ∀ t ∈ l, s.length < t.length → act t = none := by
  intro l
  induction l with
  | nil =>
    intro s r _ h
    rw [SA.tryAct] at h
    cases h
  | cons x rest ih =>
    intro s r hsort h t ht hlt
    rw [SA.tryAct] at h
    cases hx : act x with
    | some r0 =>
      rw [hx] at h
      simp at h
      rcases List.mem_cons.mp ht with rfl | ht2
      · rw [h.1] at hlt
        exact absurd hlt (lt_irrefl _)
      · exfalso
        have hle := List.rel_of_pairwise_cons hsort ht2
        rw [h.1] at hle
        omega
    | none =>
      rw [hx] at h
      simp at h
      rcases List.mem_cons.mp ht with rfl | ht2
      · exact hx
      · exact ih s r (List.Pairwise.of_cons hsort) h t ht2 hlt

lemma SA.addAll_mem {M : Type} [DecidableEq M] :
    ∀ (res sentence : List M) (m : M),
      m ∈ SA.addAll sentence res ↔ m ∈ sentence ∨ m ∈ res := by
  intro res
  induction res with
  | nil =>
    intro sentence m
    rw [SA.addAll]
    simp
  | cons r rest ih =>
    intro sentence m
    have hstep : SA.addAll sentence (r :: rest) =
        SA.addAll (if r ∈ sentence then sentence else sentence ++ [r]) rest := by
      rw [SA.addAll, SA.addAll, List.foldl_cons]
    rw [hstep, ih]
    by_cases hr : r ∈ sentence
    · rw [if_pos hr]
      constructor
      · rintro (h | h)
        · exact Or.inl h
        · exact Or.inr (List.mem_cons_of_mem _ h)
      · rintro (h | h)
        · exact Or.inl h
        · rcases List.mem_cons.mp h with rfl | h2
          · exact Or.inl hr
          · exact Or.inr h2
    · rw [if_neg hr]
      constructor
      · rintro (h | h)
        · rcases List.mem_append.mp h with h2 | h2
          · exact Or.inl h2
          · exact Or.inr (List.mem_cons.mpr (Or.inl (List.mem_singleton.mp h2)))
        · exact Or.inr (List.mem_cons_of_mem _ h)
      · rintro (h | h)
        · exact Or.inl (List.mem_append.mpr (Or.inl h))
        · rcases List.mem_cons.mp h with rfl | h2
          · exact Or.inl (List.mem_append.mpr (Or.inr (List.mem_singleton.mpr rfl)))
          · exact Or.inr h2

/-- C6: within one outer iteration of the activation loop, when a
construction's trial loop commits to a sequence (the first one, in
length-descending order of the accepted candidates, whose `act` returns a
non-`None` result), that sequence is an accepted candidate, every
accepted candidate strictly longer than it was already tried and failed
(`act` returned `None`), and the working set is updated by removing
exactly the consumed sequence's units and adding exactly the units
`act` returned. -/
theorem SA.constructionStep_spec {M : Type} [DecidableEq M] (c : SA.ConstrI M)
    (sentence seq res : List M)
    (h : SA.tryAct c.act (SA.sortByLenDesc ((SA.candidates sentence).filter c.check)) =
      some (seq, res)) :
    c.check seq = true ∧ seq ∈ SA.candidates sentence ∧ c.act seq = some res ∧
      (∀ t ∈ SA.candidates sentence, c.check t = true → seq.length < t.length →
        c.act t = none) ∧
      ∀ m, m ∈ SA.constructionStep c sentence ↔
        ((m ∈ sentence ∧ m ∉ seq) ∨ m ∈ res) := by
  obtain ⟨hmem, hact⟩ := SA.tryAct_mem c.act _ seq res h
  have hperm := SA.sortByLenDesc_perm ((SA.candidates sentence).filter c.check)
  have hmem2 : seq ∈ (SA.candidates sentence).filter c.check := hperm.mem_iff.mp hmem
  have hcheck : c.check seq = true := by
    have := (List.mem_filter.mp hmem2).2
    simpa using this
  have hcand : seq ∈ SA.candidates sentence := (List.mem_filter.mp hmem2).1
  refine ⟨hcheck, hcand, hact, ?_, ?_⟩
  · intro t ht htc hlt
    refine SA.tryAct_earlier_fail c.act _ seq res (SA.sortByLenDesc_sorted _) h t ?_ hlt
    exact hperm.mem_iff.mpr (List.mem_filter.mpr ⟨ht, by simpa using htc⟩)
  · intro m
    simp only [SA.constructionStep]
    rw [h]
    rw [SA.addAll_mem]
    simp [List.mem_filter]

/-- C6 (witness): a construction that accepts everything and returns the
consumed sequence unchanged, on the working set `[0]`. -/
theorem SA.constructionStep_witness :
    (SA.ConstrI.mk (fun _ => true) fun s => some s).check [0] = true ∧
      [0] ∈ SA.candidates [0] ∧
      (SA.ConstrI.mk (fun _ => true) fun s => some s).act [0] = some [0] ∧
      (∀ t ∈ SA.candidates [0],
        (SA.ConstrI.mk (fun _ => true) fun s => some s).check t = true →
        ([0] : List Nat).length < t.length →
        (SA.ConstrI.mk (fun _ => true) fun s => some s).act t = none) ∧
      ∀ m, m ∈ SA.constructionStep (SA.ConstrI.mk (fun _ => true) fun s => some s) [0] ↔
        ((m ∈ ([0] : List Nat) ∧ m ∉ ([0] : List Nat)) ∨ m ∈ ([0] : List Nat)) :=
  SA.constructionStep_spec (SA.ConstrI.mk (fun _ => true) fun s => some s)
    [0] [0] [0] (by decide)

lemma SA.linkPartition_mem (p : List Nat) (a : Nat) (others : List Nat) (x : Nat) :
    x ∈ SA.linkPartition p a others ↔ (x ∈ p ∧ x ≠ a) ∨ x ∈ others := by
  have he : SA.linkPartition p a others = SA.addAll (p.filter fun y => y != a) others := rfl
  rw [he, SA.addAll_mem]
  simp [List.mem_filter]

lemma SA.linkMachine_getD (parts : List (List Nat)) (a : Nat) (others : List Nat)
    (i : Nat) :
    (SA.linkMachine parts a others).getD i [] =
      if a ∈ parts.getD i [] then SA.linkPartition (parts.getD i []) a others
      else parts.getD i [] := by
  rw [SA.linkMachine]
  rw [List.getD_eq_getElem?_getD, List.getElem?_map, List.getD_eq_getElem?_getD]
  cases hp : parts[i]? with
  | none => simp
  | some p =>
    by_cases ha : a ∈ p
    · simp [ha]
    · simp [ha]

lemma SA.linkCall_pres_mem (g : CS.Graph) (a2 : Nat) (machs : List Nat) (u i a : Nat)
    (hne : a ≠ a2) (hnm : a ∉ machs) :
    a ∈ (SA.linkCall g a2 machs u).getD i [] ↔ a ∈ (g u).getD i [] := by
  rw [SA.linkCall]
  by_cases hu : u ∈ machs
  · rw [if_pos hu, SA.linkMachine_getD]
    by_cases hap : a2 ∈ (g u).getD i []
    · rw [if_pos hap, SA.linkPartition_mem]
      constructor
      · rintro (⟨h1, _⟩ | h1)
        · exact h1
        · exact absurd (List.mem_of_mem_filter h1) hnm
      · intro h1
        exact Or.inl ⟨h1, hne⟩
    · rw [if_neg hap]
  · rw [if_neg hu]

lemma SA.linkCall_mono_mem (g : CS.Graph) (a2 : Nat) (machs : List Nat) (u i v : Nat)
    (hv : v ≠ a2) (h : v ∈ (g u).getD i []) :
    v ∈ (SA.linkCall g a2 machs u).getD i [] := by
  rw [SA.linkCall]
  by_cases hu : u ∈ machs
  · rw [if_pos hu, SA.linkMachine_getD]
    by_cases hap : a2 ∈ (g u).getD i []
    · rw [if_pos hap, SA.linkPartition_mem]
      exact Or.inl ⟨h, hv⟩
    · rw [if_neg hap]
      exact h
  · rw [if_neg hu]
    exact h

lemma SA.linkFold_pres (a : Nat) :
    ∀ (calls : List (Nat × List Nat)) (g : CS.Graph),
      (∀ kv ∈ calls, a ≠ kv.1) → (∀ kv ∈ calls, a ∉ kv.2) →
      ∀ u i,
        a ∈ ((calls.foldl (fun h kv => SA.linkCall h kv.1 kv.2) g) u).getD i [] ↔
          a ∈ (g u).getD i [] := by
  intro calls
  induction calls with
  | nil =>
    intro g _ _ u i
    rw [List.foldl_nil]
  | cons kv rest ih =>
    intro g h1 h2 u i
    rw [List.foldl_cons]
    rw [ih (SA.linkCall g kv.1 kv.2)
      (fun kw hk => h1 kw (List.mem_cons_of_mem _ hk))
      (fun kw hk => h2 kw (List.mem_cons_of_mem _ hk))]
    exact SA.linkCall_pres_mem g kv.1 kv.2 u i a
      (h1 kv (List.mem_cons_self _ _)) (h2 kv (List.mem_cons_self _ _))

lemma SA.linkFold_mono (v : Nat) :
    ∀ (calls : List (Nat × List Nat)) (g : CS.Graph),
      (∀ kv ∈ calls, v ≠ kv.1) →
      ∀ u i, v ∈ (g u).getD i [] →
        v ∈ ((calls.foldl (fun h kv => SA.linkCall h kv.1 kv.2) g) u).getD i [] := by
  intro calls
  induction calls with
  | nil =>
    intro g _ u i h
    rw [List.foldl_nil]
    exact h
  | cons kv rest ih =>
    intro g h1 u i h
    rw [List.foldl_cons]
    exact ih (SA.linkCall g kv.1 kv.2)
      (fun kw hk => h1 kw (List.mem_cons_of_mem _ hk)) u i
      (SA.linkCall_mono_mem g kv.1 kv.2 u i v (h1 kv (List.mem_cons_self _ _)) h)

lemma SA.key_unique :
    ∀ (l : List (Nat × List Nat)), (l.map Prod.fst).Nodup →
      ∀ a U V, (a, U) ∈ l → (a, V) ∈ l → U = V := by
  intro l
  induction l with
  | nil =>
    intro _ a U V hU
    simp at hU
  | cons kv rest ih =>
    intro hnd a U V hU hV
    rw [List.map_cons, List.nodup_cons] at hnd
    rcases List.mem_cons.mp hU with rfl | hU2
    · rcases List.mem_cons.mp hV with hV1 | hV2
      · exact ((Prod.ext_iff.mp hV1).2).symm
      · exfalso
        exact hnd.1 (List.mem_map.mpr ⟨(a, V), hV2, rfl⟩)
    · rcases List.mem_cons.mp hV with rfl | hV2
      · exfalso
        exact hnd.1 (List.mem_map.mpr ⟨(a, U), hU2, rfl⟩)
      · exact ih hnd.2 a U V hU2 hV2

lemma SA.filter_key_unique (p : Nat × List Nat → Bool) :
    ∀ (l : List (Nat × List Nat)) (a : Nat) (U : List Nat),
      (l.map Prod.fst).Nodup → (a, U) ∈ l → p (a, U) = true →
      l.filter (fun kv => (kv.1 == a) && p kv) = [(a, U)] := by
  intro l
  induction l with
  | nil =>
    intro a U _ hm
    simp at hm
  | cons kv rest ih =>
    intro a U hnd hm hp
    rw [List.map_cons, List.nodup_cons] at hnd
    rcases List.mem_cons.mp hm with rfl | hm2
    · rw [List.filter_cons, if_pos (by simp [hp])]
      have hrest : rest.filter (fun kv => (kv.1 == a) && p kv) = [] := by
        rw [List.filter_eq_nil_iff]
        intro kw hkw
        simp only [Bool.and_eq_true, beq_iff_eq, not_and]
        intro hkey _
        exact hnd.1 (List.mem_map.mpr ⟨kw, hkw, hkey⟩)
      rw [hrest]
    · rw [List.filter_cons]
      by_cases hc : ((kv.1 == a) && p kv) = true
      · exfalso
        have hkey : kv.1 = a := by
          simp only [Bool.and_eq_true, beq_iff_eq] at hc
          exact hc.1
        refine hnd.1 ?_
        rw [hkey]
        exact List.mem_map.mpr ⟨(a, U), hm2, rfl⟩
      · rw [if_neg hc]
        exact ih a U hnd.2 hm2 hp

/-- C7: for every anchor in the linking map, within a loop iteration in
which at least two units hold it, exactly one `_link` call is made for it
— with exactly its holding set — the anchor is then deleted from the
linking map, and after the iteration's link phase every holding unit has
the anchor removed from each partition that contained it with every other
holding unit appended there (mutual connection); an anchor held by fewer
than two units persists in the map and triggers no call.  The linker keys
are distinct (a Python dict) and linkers are never themselves held units
(they are deep-case markers). -/
theorem SA.linking_step_spec (g : CS.Graph) (linking : List (Nat × List Nat))
    (hnd : (linking.map Prod.fst).Nodup)
    (hdisj : ∀ kv ∈ linking, ∀ kw ∈ linking, kv.1 ∉ kw.2)
    (a : Nat) (U : List Nat) (hmem : (a, U) ∈ linking) :
    (1 < U.length →
        (SA.linkCalls linking).filter (fun kv => kv.1 == a) = [(a, U)] ∧
        (∀ V, (a, V) ∉ SA.linkRemaining linking) ∧
        ∀ u ∈ U, ∀ i, a ∈ (g u).getD i [] →
          a ∉ (SA.linkGraphStep g linking u).getD i [] ∧
          ∀ v ∈ U, v ≠ u → v ∈ (SA.linkGraphStep g linking u).getD i []) ∧
      (¬1 < U.length →
        (a, U) ∈ SA.linkRemaining linking ∧
        ∀ V, (a, V) ∉ SA.linkCalls linking) := by
  have hsub : ∀ kv, kv ∈ SA.linkCalls linking → kv ∈ linking := fun kv h =>
    List.mem_of_mem_filter h
  constructor
  · intro hU
    have hc1 : (SA.linkCalls linking).filter (fun kv => kv.1 == a) = [(a, U)] := by
      rw [SA.linkCalls, List.filter_filter]
      exact SA.filter_key_unique _ linking a U hnd hmem (by simp [hU])
    refine ⟨hc1, ?_, ?_⟩
    · intro V hV
      have hV2 : (a, V) ∈ linking := List.mem_of_mem_filter hV
      have hVU : V = U := SA.key_unique linking hnd a V U hV2 hmem
      subst hVU
      rw [SA.linkRemaining, List.mem_filter] at hV
      simp [hU] at hV
    · intro u hu i ha
      have hacalls : (a, U) ∈ SA.linkCalls linking := by
        rw [SA.linkCalls, List.mem_filter]
        exact ⟨hmem, by simp [hU]⟩
      obtain ⟨l1, l2, hsplit⟩ := List.append_of_mem hacalls
      have hcnd : ((SA.linkCalls linking).map Prod.fst).Nodup :=
        List.Nodup.sublist (List.Sublist.map Prod.fst (List.filter_sublist linking)) hnd
      rw [hsplit, List.map_append, List.map_cons] at hcnd
      have hmid := List.nodup_cons.mp (List.nodup_middle.mp hcnd)
      have hal1 : ∀ kv ∈ l1, a ≠ kv.1 := by
        intro kv hk he
        exact hmid.1 (List.mem_append.mpr (Or.inl (List.mem_map.mpr ⟨kv, hk, he.symm⟩)))
      have hal2 : ∀ kv ∈ l2, a ≠ kv.1 := by
        intro kv hk he
        exact hmid.1 (List.mem_append.mpr (Or.inr (List.mem_map.mpr ⟨kv, hk, he.symm⟩)))
      have hnmach : ∀ kv ∈ SA.linkCalls linking, a ∉ kv.2 := fun kv hk =>
        hdisj (a, U) hmem kv (hsub kv hk)
      have hnotU : a ∉ U := hdisj (a, U) hmem (a, U) hmem
      have hvnl : ∀ v ∈ U, ∀ kv ∈ SA.linkCalls linking, v ≠ kv.1 := by
        intro v hv kv hk he
        exact hdisj kv (hsub kv hk) (a, U) hmem (he ▸ hv)
      have hl1c : ∀ kv ∈ l1, kv ∈ SA.linkCalls linking := by
        intro kv hk
        rw [hsplit]
        exact List.mem_append.mpr (Or.inl hk)
      have hl2c : ∀ kv ∈ l2, kv ∈ SA.linkCalls linking := by
        intro kv hk
        rw [hsplit]
        exact List.mem_append.mpr (Or.inr (List.mem_cons_of_mem _ hk))
      have hstep : SA.linkGraphStep g linking =
          l2.foldl (fun h kv => SA.linkCall h kv.1 kv.2)
            (SA.linkCall (l1.foldl (fun h kv => SA.linkCall h kv.1 kv.2) g) a U) := by
        rw [SA.linkGraphStep, hsplit, List.foldl_append, List.foldl_cons]
      have ha1 : a ∈ ((l1.foldl (fun h kv => SA.linkCall h kv.1 kv.2) g) u).getD i [] :=
        (SA.linkFold_pres a l1 g hal1 (fun kv hk => hnmach kv (hl1c kv hk)) u i).mpr ha
      have hag2 : a ∉ ((SA.linkCall
          (l1.foldl (fun h kv => SA.linkCall h kv.1 kv.2) g) a U) u).getD i [] := by
        rw [SA.linkCall, if_pos hu, SA.linkMachine_getD, if_pos ha1,
          SA.linkPartition_mem]
        rintro (⟨_, hne⟩ | hin)
        · exact hne rfl
        · exact hnotU (List.mem_of_mem_filter hin)
      constructor
      · rw [hstep]
        intro h
        exact hag2
          ((SA.linkFold_pres a l2 _ hal2 (fun kv hk => hnmach kv (hl2c kv hk)) u i).mp h)
      · intro v hv hvu
        rw [hstep]
        refine SA.linkFold_mono v l2 _ (fun kv hk => hvnl v hv kv (hl2c kv hk)) u i ?_
        rw [SA.linkCall, if_pos hu, SA.linkMachine_getD, if_pos ha1,
          SA.linkPartition_mem]
        refine Or.inr (List.mem_filter.mpr ⟨hv, ?_⟩)
        simp [hvu]
  · intro hU
    constructor
    · rw [SA.linkRemaining, List.mem_filter]
      exact ⟨hmem, by simp [hU]⟩
    · intro V hV
      have hV2 : (a, V) ∈ linking := List.mem_of_mem_filter hV
      have hVU : V = U := SA.key_unique linking hnd a V U hV2 hmem
      subst hVU
      rw [SA.linkCalls, List.mem_filter] at hV
      simp [hU] at hV

/-- C7 (witness): Example 4 of the spec — the anchor 100 (e.g. "AGT")
held by exactly the machines 1 and 2. -/
theorem SA.linking_step_witness :
    (1 < ([1, 2] : List Nat).length →
        (SA.linkCalls [(100, [1, 2])]).filter (fun kv => kv.1 == 100) = [(100, [1, 2])] ∧
        (∀ V, (100, V) ∉ SA.linkRemaining [(100, [1, 2])]) ∧
        ∀ u ∈ ([1, 2] : List Nat), ∀ i,
          100 ∈ ((fun j => if j = 1 then [[], [100]] else
              if j = 2 then [[], [100, 3]] else [[], []] : CS.Graph) u).getD i [] →
          100 ∉ (SA.linkGraphStep
              (fun j => if j = 1 then [[], [100]] else
                if j = 2 then [[], [100, 3]] else [[], []]) [(100, [1, 2])] u).getD i [] ∧
          ∀ v ∈ ([1, 2] : List Nat), v ≠ u →
            v ∈ (SA.linkGraphStep
              (fun j => if j = 1 then [[], [100]] else
                if j = 2 then [[], [100, 3]] else [[], []]) [(100, [1, 2])] u).getD i []) ∧
      (¬1 < ([1, 2] : List Nat).length →
        (100, [1, 2]) ∈ SA.linkRemaining [(100, [1, 2])] ∧
        ∀ V, (100, V) ∉ SA.linkCalls [(100, [1, 2])]) :=
  SA.linking_step_spec
    (fun j => if j = 1 then [[], [100]] else if j = 2 then [[], [100, 3]] else [[], []])
    [(100, [1, 2])] (by decide) (by decide) 100 [1, 2] (by decide)
